/-
Verification of the spritesheet assembler (src/assembler/src/main.rs).

The Rust source is shallowly embedded below: `usize` values are modelled as
`Nat` (the arithmetic the theorems evaluate stays far below 2^64, where the
two agree), `Result<T, Box<dyn Error>>` as `Except AsmError T`, and the
decoded `RgbaImage` as a width/height pair together with a total pixel
function (queries are only ever made at in-bounds coordinates).
-/
import Mathlib

namespace Assembler

/-- The `Dims` struct of the source: a pair of `usize` fields, used both for
pixel sizes of tiles and for column/row counts of the grid. -/
structure Dims where
  x : Nat
  y : Nat
deriving DecidableEq, Repr

/-- The error kinds declared in `errors.rs` and raised by the source, plus
the walkdir traversal error that `image_filter` propagates with `entry?`
and the `image::open` failure it propagates with `?`. -/
inductive AsmError where
  | NoImagesError
  | InconsistentSizeError
  | ImageFormatError
  | WalkdirError
  | ImageDecodeError
deriving DecidableEq, Repr

/-- `y_from_x` of the source: the row count for a candidate column count
`x`, i.e. `(count as f32 / x as f32).ceil() as usize`.  The source routes
the division through `f32`; for every `x ≥ 1` and `count < 2^24` (the range
over which `f32` represents these integers exactly, and far beyond any
realistic tile count) that computation equals the integer ceiling
`(count + x - 1) / x` used here. -/
def y_from_x (x count : Nat) : Nat :=
  (count + x - 1) / x

/-- `usize::MAX` on a 64-bit target, the initial accumulator of the fold in
`optimal_stacking`. -/
def usizeMax : Nat := 2 ^ 64 - 1

/-- The accumulator struct `Min { dim, x }` declared inside
`optimal_stacking`. -/
structure Min where
  dim : Nat
  x : Nat
deriving DecidableEq, Repr

/-- The fold of `optimal_stacking` over candidate column counts
`1..=count`: each candidate `x` gets the row count `y_from_x x count` and
the score `max (y * dims.y) (x * dims.x)`; a candidate replaces the running
minimum only under a strict `<` comparison. -/
def stackingFold (count : Nat) (dims : Dims) : Min :=
  (List.range' 1 count).foldl
    (fun min x =>
      let y := y_from_x x count
      let dim := max (y * dims.y) (x * dims.x)
      if dim < min.dim then { dim := dim, x := x } else min)
    { dim := usizeMax, x := 0 }

/-- `optimal_stacking` of the source: it computes the fold, destructures its
winner with `let Min { x, .. } = ...`, and then returns the literal
`Dims { x: count, y: 1 }`, which never mentions the destructured winner. -/
def optimal_stacking (count : Nat) (dims : Dims) : Dims :=
  let _min := stackingFold count dims
  { x := count, y := 1 }

/-- One RGBA pixel value, the `image::Rgba<u8>` of the source. -/
structure Rgba where
  r : Nat
  g : Nat
  b : Nat
  a : Nat
deriving DecidableEq, Repr

/-- The fully transparent pixel, the zero-initialised content of
`image::ImageBuffer::new`. -/
def transparent : Rgba := ⟨0, 0, 0, 0⟩

/-- A decoded `RgbaImage`: a width, a height, and the pixel grid as a total
function (only in-bounds coordinates are ever queried by the theorems). -/
structure RgbaImage where
  width : Nat
  height : Nat
  pixel : Nat → Nat → Rgba

/-- `image::ImageBuffer::new width height`: a canvas of the given size whose
pixels are all zeroed, i.e. fully transparent. -/
def newImage (w h : Nat) : RgbaImage :=
  { width := w, height := h, pixel := fun _ _ => transparent }

/-- `image::imageops::replace(&mut out, img, x, y)`: copy `img` onto `out`
with its top-left corner at `(x, y)`, overwriting the destination pixels
with the source pixels with no alpha blending.  The source's clipping at
the canvas border is immaterial here because the pixel grid is total and
the theorems only query in-bounds coordinates. -/
def replace (out img : RgbaImage) (x y : Nat) : RgbaImage :=
  { out with
    pixel := fun px py =>
      if x ≤ px ∧ px < x + img.width ∧ y ≤ py ∧ py < y + img.height then
        img.pixel (px - x) (py - y)
      else
        out.pixel px py }

/-- `dims` of the source: `iter.next()` (here `head?`) raises
`NoImagesError` on an empty sequence; otherwise the first tile's dimensions
are the reference and `images.iter().all(...)` compares every tile
(the first included, trivially) against them, raising
`InconsistentSizeError` on any mismatch. -/
def dims (images : List RgbaImage) : Except AsmError Dims :=
  match images.head? with
  | none => Except.error AsmError.NoImagesError
  | some first =>
    if images.all fun next => next.width == first.width && next.height == first.height then
      Except.ok { x := first.width, y := first.height }
    else
      Except.error AsmError.InconsistentSizeError

/-- The compositing loop of `main`:
`for (i, img) in images.iter().enumerate()` pastes tile `i` at
`((i % tiles.x) * dims.x, (i / tiles.x) * dims.y)`; the running index `i`
is threaded explicitly. -/
def composeAux (tiles dimsVal : Dims) : Nat → List RgbaImage → RgbaImage → RgbaImage
  | _, [], out => out
  | i, img :: rest, out =>
    composeAux tiles dimsVal (i + 1) rest
      (replace out img ((i % tiles.x) * dimsVal.x) ((i / tiles.x) * dimsVal.y))

/-- The Compositor of `main`: allocate the `(tiles.x * dims.x) ×
(tiles.y * dims.y)` canvas with `ImageBuffer::new` and run the paste loop
from index 0. -/
def compose (images : List RgbaImage) (tiles dimsVal : Dims) : RgbaImage :=
  composeAux tiles dimsVal 0 images (newImage (tiles.x * dimsVal.x) (tiles.y * dimsVal.y))

/-- The destination rectangle of tile `i`: the exact condition under which
`replace` writes a pixel of tile `i` at `(px, py)` in the paste loop. -/
def inRegion (tiles dimsVal : Dims) (i : Nat) (img : RgbaImage) (px py : Nat) : Prop :=
  (i % tiles.x) * dimsVal.x ≤ px ∧ px < (i % tiles.x) * dimsVal.x + img.width ∧
  (i / tiles.x) * dimsVal.y ≤ py ∧ py < (i / tiles.x) * dimsVal.y + img.height

/-- The outcome of `image::open` on one directory entry, an input to the
Loader's filtering logic: the entry decoded as 8-bit RGBA, decoded to some
other `DynamicImage` variant, or failed to open/decode at all. -/
inductive DecodedImage where
  | rgba8 (img : RgbaImage)
  | otherFormat
  | openFailed

/-- A directory entry produced by the walkdir traversal, carrying the
outcome its path yields under `image::open`. -/
structure DirEntry where
  decoded : DecodedImage

/-- `image_filter` of the source: `entry?` propagates a walkdir error,
`image::open(path)?` propagates an open/decode failure, and a decoded image
that is not the `ImageRgba8` variant raises `ImageFormatError`. -/
def image_filter (entry : Except AsmError DirEntry) : Except AsmError RgbaImage :=
  match entry with
  | Except.error e => Except.error e
  | Except.ok en =>
    match en.decoded with
    | DecodedImage.rgba8 img => Except.ok img
    | DecodedImage.otherFormat => Except.error AsmError.ImageFormatError
    | DecodedImage.openFailed => Except.error AsmError.ImageDecodeError

/-- `collect_images` of the source: run `image_filter` over the traversal
results and keep, in order, exactly the `Ok` images
(`filter_map(|e| match image_filter(e) { Ok(img) => Some(img), Err(_) => None })`). -/
def collect_images (entries : List (Except AsmError DirEntry)) : List RgbaImage :=
  entries.filterMap fun e =>
    match image_filter e with
    | Except.ok img => some img
    | Except.error _ => none

/-- A concrete 4×4 tile with distinct pixel values, used to instantiate the
universally quantified theorems. -/
def img44 : RgbaImage :=
  { width := 4, height := 4, pixel := fun px py => ⟨px, py, 0, 255⟩ }

/-- A concrete 2×2 tile, used to instantiate the universally quantified
theorems. -/
def img22 : RgbaImage :=
  { width := 2, height := 2, pixel := fun _ _ => ⟨1, 2, 3, 4⟩ }

/-- C1: the optimality contract fails on the code.  At `count = 4`,
`dims = (10, 10)` the function returns `(4, 1)`, whose score is
`max (1*10) (4*10) = 40`, while the candidate `(c, r) = (2, 2)` satisfies
`c * r ≥ 4` and `c ≤ 4` with the strictly smaller score
`max (2*10) (2*10) = 20`; the internal fold even finds that winner
(`x = 2`, score 20) but its result is discarded. -/
theorem optimal_stacking_not_minimal :
    optimal_stacking 4 ⟨10, 10⟩ = ⟨4, 1⟩ ∧
    2 * 2 ≥ 4 ∧ 2 ≤ 4 ∧
    max (2 * 10) (2 * 10) < max (1 * 10) (4 * 10) ∧
    stackingFold 4 ⟨10, 10⟩ = ⟨20, 2⟩ := by
  refine ⟨rfl, by decide, by decide, by decide, by decide⟩

/-- C2: at `count = 4`, `dims = (10, 10)` the code returns `(4, 1)`, not the
claimed `(2, 2)`, even though the internal fold computes exactly the
claimed winner (`x = 2` with `y_from_x 2 4 = 2` rows) before being
discarded. -/
theorem optimal_stacking_four_tiles :
    optimal_stacking 4 ⟨10, 10⟩ ≠ ⟨2, 2⟩ ∧
    optimal_stacking 4 ⟨10, 10⟩ = ⟨4, 1⟩ ∧
    (stackingFold 4 ⟨10, 10⟩).x = 2 ∧ y_from_x 2 4 = 2 := by
  refine ⟨by decide, rfl, by decide, by decide⟩

/-- C3: at `count = 5`, `dims = (10, 10)` the code returns `(5, 1)`, not the
claimed `(2, 3)`.  The tie-break logic inside the fold does behave as the
claim describes — with candidates `c = 2` and `c = 3` both scoring 30, the
strict `<` keeps the earlier `c = 2` (rows `y_from_x 2 5 = 3`) — but the
fold's winner is discarded by the return value. -/
theorem optimal_stacking_five_tiles :
    optimal_stacking 5 ⟨10, 10⟩ ≠ ⟨2, 3⟩ ∧
    optimal_stacking 5 ⟨10, 10⟩ = ⟨5, 1⟩ ∧
    stackingFold 5 ⟨10, 10⟩ = ⟨30, 2⟩ ∧ y_from_x 2 5 = 3 ∧
    max (y_from_x 2 5 * 10) (2 * 10) = max (y_from_x 3 5 * 10) (3 * 10) := by
  refine ⟨by decide, rfl, by decide, by decide, by decide⟩

/-- C4: for every positive count and every tile dimensions the function
returns `columns = count`, `rows = 1`; the fold over candidate column
counts never influences the returned value. -/
theorem optimal_stacking_ignores_fold (count : Nat) (_hcount : 1 ≤ count)
    (dimsVal : Dims) :
    optimal_stacking count dimsVal = ⟨count, 1⟩ := rfl

/-- Witness for C4 at `count = 7`, `dims = (3, 5)`. -/
theorem optimal_stacking_ignores_fold_witness :
    optimal_stacking 7 ⟨3, 5⟩ = ⟨7, 1⟩ :=
  optimal_stacking_ignores_fold 7 (by decide) ⟨3, 5⟩

theorem replace_pixel_in (out img : RgbaImage) (x y px py : Nat)
    (h : x ≤ px ∧ px < x + img.width ∧ y ≤ py ∧ py < y + img.height) :
    (replace out img x y).pixel px py = img.pixel (px - x) (py - y) := by
  simp only [replace]
  rw [if_pos h]

theorem replace_pixel_notin (out img : RgbaImage) (x y px py : Nat)
    (h : ¬(x ≤ px ∧ px < x + img.width ∧ y ≤ py ∧ py < y + img.height)) :
    (replace out img x y).pixel px py = out.pixel px py := by
  simp only [replace]
  rw [if_neg h]

theorem composeAux_width (tiles dimsVal : Dims) (l : List RgbaImage)
    (i : Nat) (out : RgbaImage) :
    (composeAux tiles dimsVal i l out).width = out.width := by
  induction l generalizing i out with
  | nil => rfl
  | cons img rest ih =>
    show (composeAux tiles dimsVal (i + 1) rest _).width = out.width
    rw [ih]
    rfl

theorem composeAux_height (tiles dimsVal : Dims) (l : List RgbaImage)
    (i : Nat) (out : RgbaImage) :
    (composeAux tiles dimsVal i l out).height = out.height := by
  induction l generalizing i out with
  | nil => rfl
  | cons img rest ih =>
    show (composeAux tiles dimsVal (i + 1) rest _).height = out.height
    rw [ih]
    rfl

/-- A pixel that lies in no remaining tile's destination rectangle is left
untouched by the rest of the paste loop. -/
theorem composeAux_pixel_none (tiles dimsVal : Dims) (l : List RgbaImage)
    (i0 : Nat) (out : RgbaImage) (px py : Nat)
    (hout : ∀ j img, l.get? j = some img →
      ¬ inRegion tiles dimsVal (i0 + j) img px py) :
    (composeAux tiles dimsVal i0 l out).pixel px py = out.pixel px py := by
  induction l generalizing i0 out with
  | nil => rfl
  | cons img rest ih =>
    show (composeAux tiles dimsVal (i0 + 1) rest
      (replace out img ((i0 % tiles.x) * dimsVal.x) ((i0 / tiles.x) * dimsVal.y))).pixel px py
        = out.pixel px py
    rw [ih (i0 + 1) _ ?_]
    · exact replace_pixel_notin _ _ _ _ _ _ (by
        have h0 := hout 0 img rfl
        simpa [inRegion] using h0)
    · intro j im hj
      have h := hout (j + 1) im (by simpa using hj)
      have e : i0 + (j + 1) = (i0 + 1) + j := by omega
      rw [e] at h
      exact h

/-- The pixel written by the paste of tile `k` survives the rest of the
loop, provided no later tile's destination rectangle covers it. -/
theorem composeAux_pixel_hit (tiles dimsVal : Dims) (l : List RgbaImage)
    (i0 k : Nat) (img : RgbaImage) (out : RgbaImage) (px py : Nat)
    (hk : l.get? k = some img)
    (hin : inRegion tiles dimsVal (i0 + k) img px py)
    (hout : ∀ j im, k < j → l.get? j = some im →
      ¬ inRegion tiles dimsVal (i0 + j) im px py) :
    (composeAux tiles dimsVal i0 l out).pixel px py =
      img.pixel (px - ((i0 + k) % tiles.x) * dimsVal.x)
        (py - ((i0 + k) / tiles.x) * dimsVal.y) := by
  induction l generalizing i0 k out with
  | nil => cases hk
  | cons hd rest ih =>
    cases k with
    | zero =>
      have hhd : hd = img := by simpa using hk
      subst hhd
      show (composeAux tiles dimsVal (i0 + 1) rest
        (replace out hd ((i0 % tiles.x) * dimsVal.x) ((i0 / tiles.x) * dimsVal.y))).pixel px py
          = _
      rw [composeAux_pixel_none tiles dimsVal rest (i0 + 1) _ px py ?_]
      · have hin0 : inRegion tiles dimsVal i0 hd px py := by simpa using hin
        have := replace_pixel_in out hd ((i0 % tiles.x) * dimsVal.x)
          ((i0 / tiles.x) * dimsVal.y) px py (by simpa [inRegion] using hin0)
        simpa using this
      · intro j im hj
        have h := hout (j + 1) im (Nat.succ_pos j) (by simpa using hj)
        have e : i0 + (j + 1) = (i0 + 1) + j := by omega
        rw [e] at h
        exact h
    | succ k0 =>
      show (composeAux tiles dimsVal (i0 + 1) rest
        (replace out hd ((i0 % tiles.x) * dimsVal.x) ((i0 / tiles.x) * dimsVal.y))).pixel px py
          = _
      have e : i0 + (k0 + 1) = (i0 + 1) + k0 := by omega
      rw [e] at hin ⊢
      exact ih (i0 + 1) k0 _ (by simpa using hk) hin (fun j im hjk hj => by
        have h := hout (j + 1) im (Nat.succ_lt_succ hjk) (by simpa using hj)
        have e2 : i0 + (j + 1) = (i0 + 1) + j := by omega
        rw [e2] at h
        exact h)

/-- If the half-open interval `[b*W, b*W + W)` contains a point of
`[a*W, a*W + W)`, the two cells coincide. -/
theorem interval_separation (W a b dx : Nat) (hdx : dx < W)
    (h1 : b * W ≤ a * W + dx) (h2 : a * W + dx < b * W + W) : b = a := by
  rcases Nat.lt_trichotomy b a with h | h | h
  · exfalso
    have hle : (b + 1) * W ≤ a * W := mul_le_mul_right' (Nat.succ_le_of_lt h) W
    rw [Nat.succ_mul] at hle
    exact absurd (Nat.lt_of_le_of_lt (Nat.le_add_right _ dx)
      (Nat.lt_of_lt_of_le h2 hle)) (Nat.lt_irrefl _)
  · exact h
  · exfalso
    have hle : (a + 1) * W ≤ b * W := mul_le_mul_right' (Nat.succ_le_of_lt h) W
    rw [Nat.succ_mul] at hle
    have h3 : a * W + dx < a * W + W := Nat.add_lt_add_left hdx _
    exact absurd (Nat.lt_of_lt_of_le (Nat.lt_of_lt_of_le h3 hle) h1) (Nat.lt_irrefl _)

/-- Distinct sequence indices occupy disjoint destination rectangles: a
pixel inside tile `i`'s cell is outside tile `j`'s cell for every `j ≠ i`,
as long as the tile pasted at `j` has exactly the shared tile size. -/
theorem cells_disjoint (tiles dimsVal : Dims) (i j : Nat) (img : RgbaImage)
    (hw : img.width = dimsVal.x) (hh : img.height = dimsVal.y)
    (hne : i ≠ j) (dx dy : Nat) (hdx : dx < dimsVal.x) (hdy : dy < dimsVal.y) :
    ¬ inRegion tiles dimsVal j img
      ((i % tiles.x) * dimsVal.x + dx) ((i / tiles.x) * dimsVal.y + dy) := by
  rintro ⟨h1, h2, h3, h4⟩
  rw [hw] at h2
  rw [hh] at h4
  have hcol : j % tiles.x = i % tiles.x :=
    interval_separation dimsVal.x (i % tiles.x) (j % tiles.x) dx hdx h1 h2
  have hrow : j / tiles.x = i / tiles.x :=
    interval_separation dimsVal.y (i / tiles.x) (j / tiles.x) dy hdy h3 h4
  apply hne
  have hi0 := Nat.div_add_mod i tiles.x
  have hj0 := Nat.div_add_mod j tiles.x
  rw [← hi0, ← hj0, hcol, hrow]

/-- The central compositor fact: when every tile has the shared size
`(dimsVal.x, dimsVal.y)` and the column count is positive, the composed
canvas holds tile `i`'s pixel `(dx, dy)` at offset
`((i % columns) * W + dx, (i / columns) * H + dy)`. -/
theorem compose_pixel_tile (images : List RgbaImage) (tiles dimsVal : Dims)
    (hsz : ∀ img ∈ images, img.width = dimsVal.x ∧ img.height = dimsVal.y)
    (i : Nat) (img : RgbaImage) (hi : images.get? i = some img)
    (dx dy : Nat) (hdx : dx < dimsVal.x) (hdy : dy < dimsVal.y) :
    (compose images tiles dimsVal).pixel
      ((i % tiles.x) * dimsVal.x + dx) ((i / tiles.x) * dimsVal.y + dy) =
      img.pixel dx dy := by
  obtain ⟨hw, hh⟩ := hsz img (List.get?_mem hi)
  unfold compose
  rw [composeAux_pixel_hit tiles dimsVal images 0 i img _ _ _ hi ?_ ?_]
  · rw [Nat.zero_add]
    congr 1 <;> omega
  · rw [Nat.zero_add]
    exact ⟨Nat.le_add_right _ _, by rw [hw]; exact Nat.add_lt_add_left hdx _,
      Nat.le_add_right _ _, by rw [hh]; exact Nat.add_lt_add_left hdy _⟩
  · intro j im hij hj
    rw [Nat.zero_add]
    obtain ⟨hw2, hh2⟩ := hsz im (List.get?_mem hj)
    exact cells_disjoint tiles dimsVal i j im hw2 hh2 (Nat.ne_of_lt hij) dx dy hdx hdy

/-- C5: `dims` fails with `NoImagesError` exactly on the empty sequence;
on a non-empty sequence it fails with `InconsistentSizeError` exactly when
some tile's dimensions differ from the first tile's, and otherwise returns
the shared `(W, H)` of the first tile.  The embedded `dims` is a pure
function of the sequence, so it has no side effects on it. -/
theorem dims_spec (images : List RgbaImage) :
    (dims images = Except.error AsmError.NoImagesError ↔ images = []) ∧
    ∀ first rest, images = first :: rest →
      ((dims images = Except.error AsmError.InconsistentSizeError ↔
          ∃ t ∈ images, ¬(t.width = first.width ∧ t.height = first.height)) ∧
        ((∀ t ∈ images, t.width = first.width ∧ t.height = first.height) →
          dims images = Except.ok ⟨first.width, first.height⟩)) := by
  constructor
  · constructor
    · intro h
      cases images with
      | nil => rfl
      | cons first rest =>
        simp only [dims, List.head?_cons] at h
        split at h <;> simp_all
    · rintro rfl
      rfl
  · rintro first rest rfl
    simp only [dims, List.head?_cons]
    split_ifs with h
    · simp only [List.all_eq_true, Bool.and_eq_true, beq_iff_eq] at h
      refine ⟨⟨fun hco => by simp at hco, ?_⟩, fun _ => rfl⟩
      rintro ⟨t, ht, hne⟩
      exact absurd (h t ht) hne
    · simp only [List.all_eq_true, Bool.and_eq_true, beq_iff_eq, not_forall] at h
      obtain ⟨t, ht, hne⟩ := h
      exact ⟨⟨fun _ => ⟨t, ht, hne⟩, fun _ => rfl⟩, fun hall => absurd (hall t ht) hne⟩

/-- Witness for C5: a two-tile sequence of identical 4×4 tiles validates to
`(4, 4)`. -/
theorem dims_spec_witness :
    dims [img44, img44] = Except.ok ⟨4, 4⟩ :=
  ((dims_spec [img44, img44]).2 img44 [img44] rfl).2 (by
    intro t ht
    simp only [List.mem_cons, List.not_mem_nil, or_false] at ht
    rcases ht with rfl | rfl <;> exact ⟨rfl, rfl⟩)

/-- C6: the Compositor allocates a fully transparent canvas of size
`(columns*W, rows*H)` and pastes the tile at sequence index `i` at pixel
offset `((i mod columns)*W, (i div columns)*H)`, overwriting the
destination with the source pixels (no alpha blending: the destination
pixel equals the source pixel unconditionally, transparent sources
included); pixels covered by no tile keep the transparent background. -/
theorem compose_spec (images : List RgbaImage) (tiles dimsVal : Dims)
    (hsz : ∀ img ∈ images, img.width = dimsVal.x ∧ img.height = dimsVal.y) :
    ((compose images tiles dimsVal).width = tiles.x * dimsVal.x ∧
      (compose images tiles dimsVal).height = tiles.y * dimsVal.y) ∧
    (∀ i img, images.get? i = some img → ∀ dx dy, dx < dimsVal.x → dy < dimsVal.y →
      (compose images tiles dimsVal).pixel
        ((i % tiles.x) * dimsVal.x + dx) ((i / tiles.x) * dimsVal.y + dy) =
        img.pixel dx dy) ∧
    (∀ px py, (∀ i img, images.get? i = some img →
        ¬ inRegion tiles dimsVal i img px py) →
      (compose images tiles dimsVal).pixel px py = transparent) := by
  refine ⟨⟨composeAux_width _ _ _ _ _, composeAux_height _ _ _ _ _⟩, ?_, ?_⟩
  · intro i img hi dx dy hdx hdy
    exact compose_pixel_tile images tiles dimsVal hsz i img hi dx dy hdx hdy
  · intro px py hnone
    unfold compose
    rw [composeAux_pixel_none tiles dimsVal images 0 _ px py (fun j img hj => by
      rw [Nat.zero_add]
      exact hnone j img hj)]
    rfl

/-- Witness for C6: the canvas for one 4×4 tile on a 1×1 grid is 4×4 and
holds the tile's pixel `(2, 3)` at offset `(2, 3)`. -/
theorem compose_spec_witness :
    ((compose [img44] ⟨1, 1⟩ ⟨4, 4⟩).width = 1 * 4 ∧
      (compose [img44] ⟨1, 1⟩ ⟨4, 4⟩).height = 1 * 4) ∧
    (compose [img44] ⟨1, 1⟩ ⟨4, 4⟩).pixel ((0 % 1) * 4 + 2) ((0 / 1) * 4 + 3) =
      img44.pixel 2 3 := by
  have h := compose_spec [img44] ⟨1, 1⟩ ⟨4, 4⟩ (by
    intro img himg
    simp only [List.mem_singleton] at himg
    subst himg
    exact ⟨rfl, rfl⟩)
  exact ⟨h.1, h.2.1 0 img44 rfl 2 3 (by decide) (by decide)⟩

/-- C7: compositing the one-element sequence of a 4×4 tile through the
pipeline's grid (`optimal_stacking 1 (4,4)`, a 1×1 grid) yields a 4×4
canvas whose every in-bounds pixel equals the source tile's pixel. -/
theorem roundtrip_single_tile (t : RgbaImage) (hw : t.width = 4) (hh : t.height = 4) :
    (compose [t] (optimal_stacking 1 ⟨4, 4⟩) ⟨4, 4⟩).width = 4 ∧
    (compose [t] (optimal_stacking 1 ⟨4, 4⟩) ⟨4, 4⟩).height = 4 ∧
    ∀ dx dy, dx < 4 → dy < 4 →
      (compose [t] (optimal_stacking 1 ⟨4, 4⟩) ⟨4, 4⟩).pixel dx dy = t.pixel dx dy := by
  refine ⟨composeAux_width _ _ _ _ _, composeAux_height _ _ _ _ _, ?_⟩
  intro dx dy hdx hdy
  have h := compose_pixel_tile [t] (optimal_stacking 1 ⟨4, 4⟩) ⟨4, 4⟩ (by
      intro img himg
      simp only [List.mem_singleton] at himg
      subst himg
      exact ⟨hw, hh⟩) 0 t rfl dx dy hdx hdy
  simpa using h

/-- Witness for C7 at the concrete tile `img44`. -/
theorem roundtrip_single_tile_witness :
    (compose [img44] (optimal_stacking 1 ⟨4, 4⟩) ⟨4, 4⟩).width = 4 ∧
    (compose [img44] (optimal_stacking 1 ⟨4, 4⟩) ⟨4, 4⟩).height = 4 ∧
    ∀ dx dy, dx < 4 → dy < 4 →
      (compose [img44] (optimal_stacking 1 ⟨4, 4⟩) ⟨4, 4⟩).pixel dx dy =
        img44.pixel dx dy :=
  roundtrip_single_tile img44 rfl rfl

/-- C9: a traversal entry on which `image_filter` fails — walkdir error,
open/decode failure, or a non-RGBA8 decode — is dropped from the collected
sequence with no error surfaced (`collect_images` is total and returns only
the list), and the entries before and after it are processed unchanged. -/
theorem collect_images_drops (pre post : List (Except AsmError DirEntry))
    (bad : Except AsmError DirEntry) (err : AsmError)
    (hbad : image_filter bad = Except.error err) :
    collect_images (pre ++ bad :: post) = collect_images pre ++ collect_images post ∧
    ∀ img, image_filter bad ≠ Except.ok img := by
  constructor
  · simp [collect_images, List.filterMap_append, List.filterMap_cons, hbad]
  · intro img h
    rw [hbad] at h
    cases h

/-- Witness for C9: an entry that failed to open, sitting between two valid
RGBA tiles, is dropped while both neighbours are kept. -/
theorem collect_images_drops_witness :
    collect_images [Except.ok ⟨DecodedImage.rgba8 img44⟩,
        Except.ok ⟨DecodedImage.openFailed⟩,
        Except.ok ⟨DecodedImage.rgba8 img22⟩] =
      collect_images [Except.ok ⟨DecodedImage.rgba8 img44⟩] ++
        collect_images [Except.ok ⟨DecodedImage.rgba8 img22⟩] ∧
    ∀ img, image_filter (Except.ok ⟨DecodedImage.openFailed⟩) ≠ Except.ok img :=
  collect_images_drops [Except.ok ⟨DecodedImage.rgba8 img44⟩]
    [Except.ok ⟨DecodedImage.rgba8 img22⟩]
    (Except.ok ⟨DecodedImage.openFailed⟩) AsmError.ImageDecodeError rfl

/-- C10: for every validated count (`count ≥ 1`) the grid returned by
`optimal_stacking` has `columns ≥ 1` (so `i mod columns` and
`i div columns` never divide by zero) and `columns * rows ≥ count`, and for
every `i < count` the pasted `W × H` region at
`((i mod columns)*W, (i div columns)*H)` lies inside the
`(columns*W) × (rows*H)` canvas. -/
theorem grid_indexing_safe (count : Nat) (hcount : 1 ≤ count) (dimsVal : Dims) :
    1 ≤ (optimal_stacking count dimsVal).x ∧
    count ≤ (optimal_stacking count dimsVal).x * (optimal_stacking count dimsVal).y ∧
    ∀ i < count,
      (i % (optimal_stacking count dimsVal).x) * dimsVal.x + dimsVal.x ≤
        (optimal_stacking count dimsVal).x * dimsVal.x ∧
      (i / (optimal_stacking count dimsVal).x) * dimsVal.y + dimsVal.y ≤
        (optimal_stacking count dimsVal).y * dimsVal.y := by
  refine ⟨hcount, ?_, ?_⟩
  · show count ≤ count * 1
    rw [Nat.mul_one]
  · intro i hi
    show (i % count) * dimsVal.x + dimsVal.x ≤ count * dimsVal.x ∧
      (i / count) * dimsVal.y + dimsVal.y ≤ 1 * dimsVal.y
    rw [Nat.mod_eq_of_lt hi, Nat.div_eq_of_lt hi]
    constructor
    · calc i * dimsVal.x + dimsVal.x = (i + 1) * dimsVal.x := (Nat.succ_mul i _).symm
        _ ≤ count * dimsVal.x := mul_le_mul_right' hi _
    · rw [Nat.zero_mul, Nat.zero_add, Nat.one_mul]

/-- Witness for C10 at `count = 3`, `dims = (2, 5)`. -/
theorem grid_indexing_safe_witness :
    1 ≤ (optimal_stacking 3 ⟨2, 5⟩).x ∧
    3 ≤ (optimal_stacking 3 ⟨2, 5⟩).x * (optimal_stacking 3 ⟨2, 5⟩).y ∧
    ∀ i < 3,
      (i % (optimal_stacking 3 ⟨2, 5⟩).x) * 2 + 2 ≤ (optimal_stacking 3 ⟨2, 5⟩).x * 2 ∧
      (i / (optimal_stacking 3 ⟨2, 5⟩).x) * 5 + 5 ≤ (optimal_stacking 3 ⟨2, 5⟩).y * 5 :=
  grid_indexing_safe 3 (by decide) ⟨2, 5⟩

end Assembler
